import Mathlib

/-!
# Verification of the indexing / semantic-search core of simple-rag-code-mcp

Shallow embedding of the chunker, indexing pipeline, vector index, search
engine, cosine scoring and path resolution of the repository, together with
proofs settling the frozen claims about the natural-language specification.

Conventions used throughout:
* JavaScript numbers that hold line indices / loop cursors are embedded as
  `Int` (the loop cursor of the chunker can become negative in JS), counts
  and sizes as `Nat`.
* A JS `while` loop that is not structurally terminating is embedded with an
  explicit fuel parameter; `none` means the fuel ran out, and a result that
  is `none` for *every* fuel is a non-terminating computation.
* External collaborators (file system, embedding backend) are passed in as
  explicit data / functions; exceptions become `Except`.
-/

namespace SimpleRagMcp

/-! ## Chunker (`chunkText`, src/unnamed/part_000 lines 61–78)

`chunkText` splits `text` on `'\n'`, then walks a window of `chunkSize`
lines, pushing `{ text, start: start + 1, end }` and setting
`start = end - overlap` after each window.  The `end` field is called `stop`
here because `end` is a Lean keyword. -/

structure RawChunk where
  text : String
  start : Int
  stop : Int
  deriving Repr, DecidableEq

/-- JS `text.split('\n')` at the character-list level: splitting an empty
list yields one empty segment, exactly like `''.split('\n')` gives `['']`. -/
def splitNlList : List Char → List (List Char)
  | [] => [[]]
  | c :: cs =>
    if c = '\n' then [] :: splitNlList cs
    else
      match splitNlList cs with
      | [] => [[c]]
      | l :: ls => (c :: l) :: ls

/-- JS `text.split('\n')`. -/
def jsSplitNewline (s : String) : List String :=
  (splitNlList s.data).map String.mk

/-- Clamp an ECMAScript slice index (which may be negative, counting from the
end) into `[0, len]`. -/
def jsSliceBound (len : Nat) (i : Int) : Nat :=
  if i < 0 then ((len : Int) + i).toNat else min i.toNat len

/-- ECMAScript `Array.prototype.slice(s, e)`. -/
def jsSlice (l : List String) (s e : Int) : List String :=
  (l.take (jsSliceBound l.length e)).drop (jsSliceBound l.length s)

/-- The `while (start < lines.length)` loop of `chunkText`, with fuel.
Each iteration computes `end = Math.min(start + chunkSize, lines.length)`,
pushes the chunk for `[start, end)`, and continues from `end - overlap`. -/
def chunkLoop (lines : List String) (chunkSize overlap : Nat) :
    Nat → Int → Option (List RawChunk)
  | 0, _ => none
  | fuel + 1, start =>
    if start < (lines.length : Int) then
      match chunkLoop lines chunkSize overlap fuel
          (min (start + (chunkSize : Int)) (lines.length : Int) - (overlap : Int)) with
      | none => none
      | some rest =>
        some ({ text := String.intercalate "\n"
                  (jsSlice lines start (min (start + (chunkSize : Int)) (lines.length : Int))),
                start := start + 1,
                stop := min (start + (chunkSize : Int)) (lines.length : Int) } :: rest)
    else
      some []

/-- Embedding of `chunkText(text, chunkSize, overlap)` (fuelled). -/
def chunkText (text : String) (chunkSize overlap fuel : Nat) : Option (List RawChunk) :=
  chunkLoop (jsSplitNewline text) chunkSize overlap fuel 0


/-! ## Embedder output and indexed chunks (`IndexedChunk`, src/unnamed/part_000 lines 12–23)

Embedding vectors are `number[]` in the source; they are embedded as
`List ℝ`.  The embedding backend itself is an external collaborator and is
passed in as `embedFn`; a per-call failure (a thrown exception) is an
`Except.error`. -/

structure IndexedChunk where
  content : String
  filePath : String
  codebase : String
  startLine : Int
  endLine : Int
  embedding : List ℝ

/-- Embedding of `CodeIndexer.indexFile` (src/unnamed/part_000 lines 115–143): chunk the
content, embed each chunk, and *drop* (only) the chunks whose embedding
generation throws — the surrounding `try/catch` is per chunk.  `none` means
the chunker ran out of fuel (the JS loop would not have returned). -/
def indexFile (embedFn : String → Except Unit (List ℝ)) (codebase filePath content : String)
    (chunkSize overlap fuel : Nat) : Option (List IndexedChunk) :=
  (chunkText content chunkSize overlap fuel).map fun textChunks =>
    textChunks.filterMap fun c =>
      match embedFn c.text with
      | .ok e => some { content := c.text, filePath := filePath, codebase := codebase,
                        startLine := c.start, endLine := c.stop, embedding := e }
      | .error _ => none

/-! ## Indexing pipeline (`CodeIndexer.indexCodebase`, src/unnamed/part_000 lines 172–254)

The file system is an external collaborator: the result of
`walkDirectory(getCodebasePath(name))` is modelled as a finite map
`registered : List (String × List FileRec)` from collection name to the
ordered list of discovered files; each file carries its `statSync` size and
the outcome of `readFileSync` (`.error` = the read threw). -/

def MAX_FILE_SIZE : Nat := 10 * 1024 * 1024

structure FileRec where
  path : String
  size : Nat
  content : Except Unit String

/-- Embedding of `{ maxFiles = Infinity, batchSize = 50, skipLargeFiles = true }`;
`maxFiles = none` models the `Infinity` default. -/
structure IndexOptions where
  maxFiles : Option Nat
  batchSize : Nat
  skipLargeFiles : Bool
  deriving Repr, DecidableEq

/-- The record returned by `indexCodebase` (lines 248–253). -/
structure IndexReport where
  indexed : Nat
  totalFiles : Nat
  skipped : Nat
  chunks : Nat
  deriving Repr, DecidableEq

/-- One file of a batch (lines 209–230): oversized files are skipped without
reading; a `statSync`/`readFileSync` failure is caught and counted as a
skip; otherwise the file is chunked and embedded and counted as indexed.
Result: (chunks pushed, indexed increment, skipped increment).  `none`
propagates chunker non-termination (an infinite loop is not an exception,
so the `catch` does not apply to it). -/
def processFile (embedFn : String → Except Unit (List ℝ)) (chunkSize overlap fuel : Nat)
    (codebaseName : String) (skipLargeFiles : Bool) (f : FileRec) :
    Option (List IndexedChunk × Nat × Nat) :=
  if skipLargeFiles ∧ MAX_FILE_SIZE < f.size then some ([], 0, 1)
  else
    match f.content with
    | .error _ => some ([], 0, 1)
    | .ok content =>
      match indexFile embedFn codebaseName f.path content chunkSize overlap fuel with
      | none => none
      | some chunks => some (chunks, 1, 0)

/-- All files of one batch.  `Promise.all` resolves to the results in the
order of the mapped array, and the `indexedCount++` / `skippedCount++`
updates commute, so the concurrent batch is observationally this sequential
map. -/
def processBatch (embedFn : String → Except Unit (List ℝ)) (chunkSize overlap fuel : Nat)
    (codebaseName : String) (skipLargeFiles : Bool) :
    List FileRec → Option (List (List IndexedChunk × Nat × Nat))
  | [] => some []
  | f :: fs =>
    match processFile embedFn chunkSize overlap fuel codebaseName skipLargeFiles f,
        processBatch embedFn chunkSize overlap fuel codebaseName skipLargeFiles fs with
    | some r, some rs => some (r :: rs)
    | _, _ => none

/-- Embedding of `for (let i = 0; i < files.length; i += batchSize)` (line 207): the
partition of the truncated file list into batches.  With `batchSize = 0`
and a non-empty list the JS loop never advances `i`; that divergence is
`none`.  The fuel argument is called with `l.length`, which always suffices
when `batchSize ≥ 1`. -/
def sliceBatches {α : Type} (batchSize : Nat) : Nat → List α → Option (List (List α))
  | _, [] => some []
  | 0, _ :: _ => none
  | fuel + 1, a :: l =>
    if batchSize = 0 then none
    else (sliceBatches batchSize fuel ((a :: l).drop batchSize)).map
      ((a :: l).take batchSize :: ·)

/-- All batches in order (cross-batch execution is sequential). -/
def processBatches (embedFn : String → Except Unit (List ℝ)) (chunkSize overlap fuel : Nat)
    (codebaseName : String) (skipLargeFiles : Bool) :
    List (List FileRec) → Option (List (List (List IndexedChunk × Nat × Nat)))
  | [] => some []
  | b :: bs =>
    match processBatch embedFn chunkSize overlap fuel codebaseName skipLargeFiles b,
        processBatches embedFn chunkSize overlap fuel codebaseName skipLargeFiles bs with
    | some r, some rs => some (r :: rs)
    | _, _ => none

/-- The state-independent work of `indexCodebase` (lines 198–246): truncate
the walked file list to `maxFiles`, batch, process, and aggregate.  Returns
(allChunks, indexedCount, skippedCount). -/
def indexRun (files : List FileRec) (embedFn : String → Except Unit (List ℝ))
    (chunkSize overlap fuel : Nat) (codebaseName : String) (opts : IndexOptions) :
    Option (List IndexedChunk × Nat × Nat) :=
  let filesToIndex := match opts.maxFiles with
    | none => files
    | some m => files.take m
  match sliceBatches opts.batchSize filesToIndex.length filesToIndex with
  | none => none
  | some batches =>
    match processBatches embedFn chunkSize overlap fuel codebaseName opts.skipLargeFiles
        batches with
    | none => none
    | some batchResults =>
      let perFile := batchResults.flatten
      some ((perFile.map (·.1)).flatten,
            (perFile.map (fun r => r.2.1)).sum,
            (perFile.map (fun r => r.2.2)).sum)

/-- JS `Map.prototype.set`: replace the value at an existing key in place
(the key keeps its insertion position), or append a new binding. -/
def jsMapSet {α : Type} (m : List (String × α)) (k : String) (v : α) : List (String × α) :=
  if m.any (fun p => p.1 = k) then m.map (fun p => if p.1 = k then (k, v) else p)
  else m ++ [(k, v)]

inductive IndexErr
  | codebaseNotFound (name : String)
  deriving Repr, DecidableEq

/-- Embedding of `CodeIndexer.indexCodebase` (lines 172–254): the in-memory vector index
`this.indexedChunks` is the `state` map; an unknown collection name throws;
line 244 replaces the collection's entries wholesale with `Map.set`.  The
report's `totalFiles` is `files.length` — the *untruncated* walk result —
while the counters only range over the `maxFiles`-truncated list. -/
def indexCodebase (registered : List (String × List FileRec))
    (embedFn : String → Except Unit (List ℝ)) (chunkSize overlap fuel : Nat)
    (codebaseName : String) (opts : IndexOptions)
    (state : List (String × List IndexedChunk)) :
    Option (Except IndexErr (IndexReport × List (String × List IndexedChunk))) :=
  match registered.lookup codebaseName with
  | none => some (.error (.codebaseNotFound codebaseName))
  | some files =>
    match indexRun files embedFn chunkSize overlap fuel codebaseName opts with
    | none => none
    | some (allChunks, indexedCount, skippedCount) =>
      some (.ok ({ indexed := indexedCount, totalFiles := files.length,
                   skipped := skippedCount, chunks := allChunks.length },
                 jsMapSet state codebaseName allChunks))

/-! ## Cosine scoring and search (`CodeIndexer.search` / `cosineSimilarity`,
src/unnamed/part_000 lines 256–301) -/

open Classical in
/-- Embedding of `cosineSimilarity` (lines 284–301): mismatched lengths score `0`;
`denominator === 0 ? 0 : dot / denominator`. -/
noncomputable def cosineSimilarity (vecA vecB : List ℝ) : ℝ :=
  if vecA.length ≠ vecB.length then 0
  else
    if Real.sqrt ((vecA.map fun x => x * x).sum) *
        Real.sqrt ((vecB.map fun x => x * x).sum) = 0 then 0
    else (List.zipWith (fun a b => a * b) vecA vecB).sum /
      (Real.sqrt ((vecA.map fun x => x * x).sum) *
        Real.sqrt ((vecB.map fun x => x * x).sum))

structure ScoredChunk where
  chunk : IndexedChunk
  score : ℝ

/-- Lines 266–268: explicit names are filtered to the ones present in the
index (in caller order); otherwise all indexed collection names in `Map`
insertion order. -/
def codebasesToSearch (state : List (String × List IndexedChunk)) :
    Option (List String) → List String
  | some names => names.filter fun n => (state.lookup n).isSome
  | none => state.map (fun p => p.1)

/-- Lines 270–277: candidate enumeration order — collections in
`codebasesToSearch` order, entries in stored order. -/
noncomputable def searchCandidates (state : List (String × List IndexedChunk))
    (queryEmbedding : List ℝ) (codebaseNames : Option (List String)) : List ScoredChunk :=
  (codebasesToSearch state codebaseNames).flatMap fun n =>
    ((state.lookup n).getD []).map fun c =>
      { chunk := c, score := cosineSimilarity queryEmbedding c.embedding }

open Classical in
/-- One insertion step of a stable descending sort: the new element (which
comes *earlier* in the input) passes over strictly greater scores and lands
in front of equal ones. -/
noncomputable def insertScoreDesc (x : ScoredChunk) :
    List ScoredChunk → List ScoredChunk
  | [] => [x]
  | y :: ys => if x.score < y.score then y :: insertScoreDesc x ys else x :: y :: ys

open Classical in
/-- Embedding of `results.sort((a, b) => b.score - a.score)` (line 280):
`Array.prototype.sort` is required by ECMAScript to be stable, and a stable
sort for a total preorder is unique, so the insertion sort below *is* the
JS sort for this comparator. -/
noncomputable def sortByScoreDesc : List ScoredChunk → List ScoredChunk
  | [] => []
  | x :: xs => insertScoreDesc x (sortByScoreDesc xs)

/-- Embedding of `CodeIndexer.search` (lines 256–282); `queryEmbedding` stands for the
external `generateEmbedding(query)`.  The default `limit` is `10`. -/
noncomputable def search (state : List (String × List IndexedChunk))
    (queryEmbedding : List ℝ) (codebaseNames : Option (List String)) (limit : Nat) :
    List ScoredChunk :=
  (sortByScoreDesc (searchCandidates state queryEmbedding codebaseNames)).take limit

inductive SearchErr
  | collectionNotFound (name : String)
  deriving Repr, DecidableEq

/-- Embedding of `semanticSearch` (src/unnamed/part_003 lines 13–37): throw
`Codebase "<name>" not found` for the first explicitly named collection
missing from the registered map (`codebaseManager.getCodebasePath`,
modelled as `registeredPaths`), then delegate to `search`.  (The final
per-field projection to `SearchResult` is dropped; it only forgets the
embedding.) -/
noncomputable def semanticSearch (registeredPaths : List (String × String))
    (state : List (String × List IndexedChunk)) (queryEmbedding : List ℝ)
    (codebaseNames : Option (List String)) (limit : Nat) :
    Except SearchErr (List ScoredChunk) :=
  match codebaseNames with
  | none => .ok (search state queryEmbedding none limit)
  | some names =>
    match names.find? (fun n => (registeredPaths.lookup n).isNone) with
    | some bad => .error (.collectionNotFound bad)
    | none => .ok (search state queryEmbedding (some names) limit)

/-! ## Path resolution and reads (`CodebaseManager.resolveFilePath`,
src/src/codebase/manager.ts lines 62–89, and `readFile`,
src/unnamed/part_004 lines 16–51)

Node's `path` module is an external collaborator.  An absolute POSIX path
is represented by its list of segments; `path.normalize` / `path.join` /
`path.resolve` compose to the segment-level resolution `resolveAbs` below
(`'..'` pops one segment and is clamped at the root, `'.'` and empty
segments vanish), and the resolved string is rebuilt by `renderAbs`.
`String.prototype.startsWith` is the character-list prefix test. -/

/-- JS `s.split(sep)` for a single-character separator (generalisation of
`jsSplitNewline`). -/
def splitOnCharList (sep : Char) : List Char → List (List Char)
  | [] => [[]]
  | c :: cs =>
    if c = sep then [] :: splitOnCharList sep cs
    else
      match splitOnCharList sep cs with
      | [] => [[c]]
      | l :: ls => (c :: l) :: ls

/-- Embedding of `filePath.split('/')` as segment strings. -/
def splitSlash (s : String) : List String :=
  (splitOnCharList '/' s.data).map String.mk

/-- Resolve `'.'`, `'..'` and empty segments of an absolute path,
Node-style (`'..'` at the root stays at the root). -/
def resolveAbs (segs : List String) : List String :=
  segs.foldl
    (fun acc s =>
      if s = "" ∨ s = "." then acc
      else if s = ".." then acc.dropLast
      else acc ++ [s])
    []

/-- Render an absolute path from its segments (`[] ↦ "/"`). -/
def renderAbs (segs : List String) : String :=
  match segs with
  | [] => "/"
  | _ => String.join (segs.map fun s => "/" ++ s)

/-- Boolean character-list prefix test (JS `startsWith`). -/
def charListPre : List Char → List Char → Bool
  | [], _ => true
  | _ :: _, [] => false
  | a :: as, b :: bs => a = b && charListPre as bs

/-- Embedding of `CodebaseManager.resolveFilePath`: `null` for an unknown codebase;
normalize + join + resolve the requested path under the codebase root;
reject it unless the resolved string equals the resolved root or extends it
past a `'/'`; finally require existence. -/
def resolveFilePath (codebases : List (String × List String)) (fsExists : String → Bool)
    (codebaseName filePath : String) : Option String :=
  match codebases.lookup codebaseName with
  | none => none
  | some rootSegs =>
    let resolvedCodebasePath := renderAbs (resolveAbs rootSegs)
    let resolvedPath := renderAbs (resolveAbs (rootSegs ++ splitSlash filePath))
    if charListPre (resolvedCodebasePath ++ "/").data resolvedPath.data ∨
        resolvedPath = resolvedCodebasePath then
      if fsExists resolvedPath then some resolvedPath else none
    else none

inductive ReadErr
  | codebaseNotFound (name : String)
  | fileNotFound (path : String)
  | fileTooLarge
  | readFailed
  deriving Repr, DecidableEq

structure FileContent where
  content : String
  filePath : String
  codebase : String
  relativePath : String
  totalLines : Nat
  startLine : Option Int
  endLine : Option Int

/-- Embedding of `getCodebaseForPath` (manager.ts lines 91–99): first registered codebase
whose raw path is a string prefix of `p`; the relative path is the
remainder after the root and its `'/'` (Node `path.relative` for the
contained case). -/
def getCodebaseForPath (codebases : List (String × List String)) (p : String) :
    Option (String × String) :=
  (codebases.find? fun q => charListPre (renderAbs (resolveAbs q.2)).data p.data).map
    fun q => (q.1, String.mk (p.data.drop ((renderAbs (resolveAbs q.2)).data.length + 1)))

/-- Embedding of `readFile` (src/unnamed/part_004 lines 16–85): unknown codebase throws;
`resolveFilePath` returning `null` throws `File not found`; then the size
guard, the read, and the clamped line-range slice. -/
def readFile (codebases : List (String × List String)) (fsExists : String → Bool)
    (fileSize : String → Nat) (fileData : String → Except Unit String)
    (codebaseName filePath : String) (startLine? endLine? : Option Int) :
    Except ReadErr FileContent :=
  match codebases.lookup codebaseName with
  | none => .error (.codebaseNotFound codebaseName)
  | some _ =>
    match resolveFilePath codebases fsExists codebaseName filePath with
    | none => .error (.fileNotFound filePath)
    | some resolvedPath =>
      if MAX_FILE_SIZE < fileSize resolvedPath then .error .fileTooLarge
      else
        match fileData resolvedPath with
        | .error _ => .error .readFailed
        | .ok content =>
          let lines := jsSplitNewline content
          let totalLines := lines.length
          let relativePath :=
            match getCodebaseForPath codebases resolvedPath with
            | some q => if q.2 = "" then filePath else q.2
            | none => filePath
          if startLine?.isSome ∨ endLine?.isSome then
            let start : Int := match startLine? with
              | some s => max 1 (min s (totalLines : Int))
              | none => 1
            let stop : Int := match endLine? with
              | some e => max start (min e (totalLines : Int))
              | none => (totalLines : Int)
            .ok { content := String.intercalate "\n" (jsSlice lines (start - 1) stop),
                  filePath := resolvedPath, codebase := codebaseName,
                  relativePath := relativePath, totalLines := totalLines,
                  startLine := some start, endLine := some stop }
          else
            .ok { content := content, filePath := resolvedPath, codebase := codebaseName,
                  relativePath := relativePath, totalLines := totalLines,
                  startLine := none, endLine := none }

/-! ## Theorems -/

theorem splitNlList_ne_nil (cs : List Char) : splitNlList cs ≠ [] := by
  cases cs with
  | nil => simp [splitNlList]
  | cons c cs =>
    simp only [splitNlList]
    split
    · simp
    · split <;> simp

theorem jsSplitNewline_length_pos (s : String) : 0 < (jsSplitNewline s).length := by
  rw [jsSplitNewline, List.length_map]
  exact List.length_pos.mpr (splitNlList_ne_nil s.data)

/-- With any positive overlap the cursor update `start = end - overlap`
always lands strictly below `lines.length` again (because
`end ≤ lines.length`), so the loop never reaches its exit condition: for
every fuel the loop runs out of fuel. -/
theorem chunkLoop_eq_none_of_pos_overlap (lines : List String) (W O : Nat) (hO : 1 ≤ O) :
    ∀ (fuel : Nat) (start : Int), start < (lines.length : Int) →
      chunkLoop lines W O fuel start = none := by
  intro fuel
  induction fuel with
  | zero => intro start _; rfl
  | succ n ih =>
    intro start h
    have hmin : min (start + (W : Int)) ((lines.length : Nat) : Int) ≤ (lines.length : Int) :=
      min_le_right _ _
    have hrec := ih (min (start + (W : Int)) ((lines.length : Nat) : Int) - (O : Int))
      (by omega)
    simp only [chunkLoop, if_pos h, hrec]

/-- The loop with overlap `0` terminates and produces exactly
`⌈(lines.length - start) / W⌉` chunks, provided enough fuel. -/
theorem chunkLoop_zero_overlap_count (lines : List String) (W : Nat) (hW : 1 ≤ W) :
    ∀ (fuel start : Nat), lines.length - start < fuel →
      ∃ res, chunkLoop lines W 0 fuel (start : Int) = some res ∧
        res.length = (lines.length - start + (W - 1)) / W := by
  intro fuel
  induction fuel with
  | zero => intro start h; omega
  | succ n ih =>
    intro start h
    by_cases hlt : start < lines.length
    · have hlt' : (start : Int) < ((lines.length : Nat) : Int) := by exact_mod_cast hlt
      have hcast : min ((start : Int) + (W : Int)) ((lines.length : Nat) : Int) - ((0 : Nat) : Int)
          = ((min (start + W) lines.length : Nat) : Int) := by
        push_cast
        omega
      obtain ⟨res, hres, hlen⟩ := ih (min (start + W) lines.length) (by omega)
      have heq : chunkLoop lines W 0 (n + 1) (start : Int) =
          some ({ text := String.intercalate "\n" (jsSlice lines (start : Int)
                    (min ((start : Int) + (W : Int)) ((lines.length : Nat) : Int))),
                  start := (start : Int) + 1,
                  stop := min ((start : Int) + (W : Int)) ((lines.length : Nat) : Int) } :: res) := by
        simp only [chunkLoop, if_pos hlt', hcast, hres]
      refine ⟨_, heq, ?_⟩
      simp only [List.length_cons, hlen]
      -- ⌈(L - min (start+W) L) / W⌉ + 1 = ⌈(L - start) / W⌉ when start < L
      rcases le_or_lt (start + W) lines.length with hle | hgt
      · have hm1 : min (start + W) lines.length = start + W := min_eq_left hle
        have hm2 : lines.length - (start + W) + (W - 1) = lines.length - start - 1 := by omega
        have hm3 : lines.length - start + (W - 1) = (lines.length - start - 1) + W := by omega
        rw [hm1, hm2, hm3, Nat.add_div_right _ (by omega)]
      · have hm1 : min (start + W) lines.length = lines.length := min_eq_right (by omega)
        have hm2 : lines.length - lines.length + (W - 1) = W - 1 := by omega
        have hm3 : (W - 1) / W = 0 := Nat.div_eq_of_lt (by omega)
        have hm4 : lines.length - start + (W - 1) = W + (lines.length - start - 1) := by omega
        have hm5 : (lines.length - start - 1) / W = 0 := Nat.div_eq_of_lt (by omega)
        rw [hm1, hm2, hm3, hm4, Nat.add_div_left _ (by omega), hm5]
    · have hzero : lines.length - start = 0 := by omega
      have hdiv : (lines.length - start + (W - 1)) / W = 0 := by
        rw [hzero]
        exact Nat.div_eq_of_lt (by omega)
      refine ⟨[], ?_, by rw [hdiv]; rfl⟩
      have hge : ¬ ((start : Int) < (lines.length : Int)) := by exact_mod_cast hlt
      cases n with
      | zero => simp only [chunkLoop, if_neg hge]
      | succ m => simp only [chunkLoop, if_neg hge]

/-- With overlap `0` and a text of at most `W` lines, the loop emits exactly
one chunk covering lines `1..L` whose text joins all the lines. -/
theorem chunkLoop_single_chunk (lines : List String) (W : Nat)
    (h1 : 1 ≤ lines.length) (h2 : lines.length ≤ W) :
    chunkLoop lines W 0 2 0 = some
      [{ text := String.intercalate "\n" lines, start := 1, stop := (lines.length : Int) }] := by
  have hpos : (0 : Int) < (lines.length : Int) := by exact_mod_cast h1
  have hmin : min ((W : Int)) ((lines.length : Nat) : Int) = (lines.length : Int) := by
    rw [min_eq_right]
    exact_mod_cast h2
  have hslice : jsSlice lines 0 (lines.length : Int) = lines := by
    have hb0 : jsSliceBound lines.length 0 = 0 := by simp [jsSliceBound]
    have hbL : jsSliceBound lines.length (lines.length : Int) = lines.length := by
      simp [jsSliceBound]
    rw [jsSlice, hb0, hbL, List.take_length, List.drop_zero]
  simp only [chunkLoop, if_pos hpos, zero_add, Nat.cast_zero, sub_zero, hmin,
    if_neg (lt_irrefl ((lines.length : Nat) : Int)), hslice]

/-! ### Claims C1, C2, C9 — chunker termination and counts -/

/-- C1: the claim says `chunkText` terminates for every `0 ≤ O < W`,
producing its last window when the window covers the last line.  In the
code there is no exit after the final window: `start = end - overlap` puts
the cursor back below `lines.length` whenever `overlap > 0`, so on the
valid parameters `W = 2, O = 1` and the three-line text `"a\nb\nc"` the
loop never terminates (it is still running at every fuel). -/
theorem c1_chunkText_diverges_on_valid_params :
    ∀ fuel : Nat, chunkText "a\nb\nc" 2 1 fuel = none := by
  intro fuel
  have hlen : (jsSplitNewline "a\nb\nc").length = 3 := rfl
  exact chunkLoop_eq_none_of_pos_overlap _ 2 1 le_rfl fuel 0 (by rw [hlen]; norm_num)

/-- C2 counterexample: the empty file does *not* yield zero chunks.
`''.split('\n')` is `['']`, one (empty) line, and with the terminating
parameters `W = 5, O = 0` the code returns exactly one chunk `1..1`. -/
theorem c2_counterexample_empty_text_one_chunk :
    chunkText "" 5 0 2 = some [{ text := "", start := 1, stop := 1 }] := by decide

/-- C2 (amended): with `O = 0` the chunker terminates and returns
`⌈L / W⌉` chunks, where `L ≥ 1` is the number of newline-split segments
(an empty file is one empty line and yields one chunk, and a file of at
most `W` lines yields exactly one chunk covering lines `1..L`); with
`0 < O` (in particular any `0 < O < W`) the chunker never terminates and
yields no count at all. -/
theorem c2_chunkText_count_amended (text : String) (W : Nat) (hW : 1 ≤ W) :
    (∃ res, chunkText text W 0 ((jsSplitNewline text).length + 1) = some res ∧
        res.length = ((jsSplitNewline text).length + (W - 1)) / W) ∧
    ((jsSplitNewline text).length ≤ W →
      chunkText text W 0 2 = some
        [{ text := String.intercalate "\n" (jsSplitNewline text),
           start := 1, stop := ((jsSplitNewline text).length : Int) }]) ∧
    (∀ O fuel : Nat, 1 ≤ O → chunkText text W O fuel = none) := by
  refine ⟨?_, ?_, ?_⟩
  · obtain ⟨res, hres, hlen⟩ := chunkLoop_zero_overlap_count (jsSplitNewline text) W hW
      ((jsSplitNewline text).length + 1) 0 (by omega)
    refine ⟨res, ?_, by simpa using hlen⟩
    rw [chunkText]
    simpa using hres
  · intro h
    rw [chunkText]
    exact chunkLoop_single_chunk _ _ (jsSplitNewline_length_pos text) h
  · intro O fuel hO
    exact chunkLoop_eq_none_of_pos_overlap _ W O hO fuel 0
      (by exact_mod_cast jsSplitNewline_length_pos text)

theorem c2_chunkText_count_amended_witness :
    (1 : Nat) ≤ 2 ∧ chunkText "a\nb\nc" 2 1 5 = none :=
  ⟨by decide, (c2_chunkText_count_amended "a\nb\nc" 2 (by decide)).2.2 1 5 (by decide)⟩

/-- C9: the claim says an index call with `O ≥ W` fails fast with a
`ConfigurationError` before any file work.  No such validation exists
anywhere in the code: `indexFile` goes straight into `chunkText`, which
with `O = W = 2` never terminates on the one-line file `"a"`, so the call
never returns anything — in particular it never returns an error. -/
theorem c9_indexFile_diverges_instead_of_config_error :
    ∀ fuel : Nat, indexFile (fun _ => Except.ok []) "cb" "/f" "a" 2 2 fuel = none := by
  intro fuel
  have h : chunkText "a" 2 2 fuel = none := by
    have hlen : (jsSplitNewline "a").length = 1 := rfl
    exact chunkLoop_eq_none_of_pos_overlap _ 2 2 (by norm_num) fuel 0 (by rw [hlen]; norm_num)
  rw [indexFile, h]
  rfl

/-! ### Claims C3, C6, C7 — pipeline counting, failure handling, replacement -/

theorem processFile_counts {embedFn : String → Except Unit (List ℝ)} {W O fuel : Nat}
    {cb : String} {skipL : Bool} {f : FileRec} {cs : List IndexedChunk} {i s : Nat}
    (h : processFile embedFn W O fuel cb skipL f = some (cs, i, s)) : i + s = 1 := by
  rw [processFile] at h
  split at h
  · simp only [Option.some.injEq, Prod.mk.injEq] at h
    omega
  · split at h
    · simp only [Option.some.injEq, Prod.mk.injEq] at h
      omega
    · split at h
      · exact absurd h (by simp)
      · simp only [Option.some.injEq, Prod.mk.injEq] at h
        omega

theorem processBatch_sum {embedFn : String → Except Unit (List ℝ)} {W O fuel : Nat}
    {cb : String} {skipL : Bool} :
    ∀ {l : List FileRec} {rs}, processBatch embedFn W O fuel cb skipL l = some rs →
      (rs.map fun r => r.2.1).sum + (rs.map fun r => r.2.2).sum = l.length := by
  intro l
  induction l with
  | nil =>
    intro rs h
    rw [processBatch] at h
    simp only [Option.some.injEq] at h
    simp [← h]
  | cons f fs ih =>
    intro rs h
    rw [processBatch] at h
    split at h
    next r rs' hf hfs =>
      obtain ⟨cs0, i0, s0⟩ := r
      simp only [Option.some.injEq] at h
      subst h
      have h1 := processFile_counts hf
      have h2 := ih hfs
      simp only [List.map_cons, List.sum_cons, List.length_cons]
      omega
    next => exact absurd h (by simp)

theorem processBatches_sum {embedFn : String → Except Unit (List ℝ)} {W O fuel : Nat}
    {cb : String} {skipL : Bool} :
    ∀ {bs : List (List FileRec)} {brs},
      processBatches embedFn W O fuel cb skipL bs = some brs →
      (brs.flatten.map fun r => r.2.1).sum + (brs.flatten.map fun r => r.2.2).sum
        = bs.flatten.length := by
  intro bs
  induction bs with
  | nil =>
    intro brs h
    rw [processBatches] at h
    simp only [Option.some.injEq] at h
    simp [← h]
  | cons b bs ih =>
    intro brs h
    rw [processBatches] at h
    split at h
    next r rs hb hbs =>
      simp only [Option.some.injEq] at h
      subst h
      have h1 := processBatch_sum hb
      have h2 := ih hbs
      simp only [List.flatten_cons, List.map_append, List.sum_append, List.length_append]
      omega
    next => exact absurd h (by simp)

theorem sliceBatches_flatten {α : Type} {n : Nat} :
    ∀ {fuel : Nat} {l : List α} {bs}, sliceBatches n fuel l = some bs → bs.flatten = l := by
  intro fuel
  induction fuel with
  | zero =>
    intro l bs h
    cases l with
    | nil =>
      rw [sliceBatches] at h
      simp only [Option.some.injEq] at h
      simp [← h]
    | cons a l => exact absurd h (by rw [sliceBatches]; simp)
  | succ m ih =>
    intro l bs h
    cases l with
    | nil =>
      rw [sliceBatches] at h
      simp only [Option.some.injEq] at h
      simp [← h]
    | cons a l =>
      rw [sliceBatches] at h
      split at h
      · exact absurd h (by simp)
      · rcases hrec : sliceBatches n m ((a :: l).drop n) with _ | bs'
        · rw [hrec] at h
          exact absurd h (by simp)
        · rw [hrec] at h
          simp only [Option.map_some', Option.some.injEq] at h
          subst h
          simp [List.flatten_cons, ih hrec]

theorem indexRun_counts {files : List FileRec} {embedFn : String → Except Unit (List ℝ)}
    {W O fuel : Nat} {name : String} {opts : IndexOptions}
    {cs : List IndexedChunk} {i s : Nat}
    (h : indexRun files embedFn W O fuel name opts = some (cs, i, s)) :
    i + s = (match opts.maxFiles with
      | none => files
      | some m => files.take m).length := by
  rw [indexRun] at h
  set F := (match opts.maxFiles with
    | none => files
    | some m => files.take m) with hF
  rcases hb : sliceBatches opts.batchSize F.length F with _ | batches
  · simp only [hb] at h
    exact absurd h (by simp)
  · simp only [hb] at h
    rcases hp : processBatches embedFn W O fuel name opts.skipLargeFiles batches
        with _ | brs
    · simp only [hp] at h
      exact absurd h (by simp)
    · simp only [hp, Option.some.injEq, Prod.mk.injEq] at h
      obtain ⟨-, hi, hs⟩ := h
      rw [← hi, ← hs, processBatches_sum hp, sliceBatches_flatten hb]

/-- C3 counterexample: three registered files with `maxFiles = 1` — the
call succeeds with `indexed = 1, skipped = 0` but `totalFiles = 3`, so
`indexed + skipped ≠ totalFiles`. -/
theorem c3_counterexample_maxFiles_truncation :
    indexCodebase [("cb", [⟨"/a", 1, .ok "x"⟩, ⟨"/b", 1, .ok "x"⟩, ⟨"/c", 1, .ok "x"⟩])]
        (fun _ => Except.ok []) 1 0 2 "cb" ⟨some 1, 50, true⟩ []
      = some (.ok ({ indexed := 1, totalFiles := 3, skipped := 0, chunks := 1 },
          [("cb", [{ content := "x", filePath := "/a", codebase := "cb",
                     startLine := 1, endLine := 1, embedding := [] }])])) ∧
    (1 : Nat) + 0 ≠ 3 :=
  ⟨rfl, by decide⟩

/-- C3 (amended): after a successful index call,
`indexed + skipped` equals the number of files *attempted*, i.e. the length
of the `maxFiles`-truncated file list (`min maxFiles totalFiles`), while
`totalFiles` reports the untruncated walk; the claimed invariant
`indexed + skipped = totalFiles` holds exactly when no truncation occurred
(in particular with the `Infinity` default). -/
theorem c3_index_counts_amended (registered : List (String × List FileRec))
    (embedFn : String → Except Unit (List ℝ)) (W O fuel : Nat) (name : String)
    (opts : IndexOptions) (state : List (String × List IndexedChunk))
    (files : List FileRec) (r : IndexReport) (st : List (String × List IndexedChunk))
    (hreg : List.lookup name registered = some files)
    (hcall : indexCodebase registered embedFn W O fuel name opts state
      = some (.ok (r, st))) :
    r.totalFiles = files.length ∧
    (opts.maxFiles = none → r.indexed + r.skipped = r.totalFiles) ∧
    (∀ m, opts.maxFiles = some m → r.indexed + r.skipped = min m files.length) := by
  rw [indexCodebase] at hcall
  simp only [hreg] at hcall
  rcases hrun : indexRun files embedFn W O fuel name opts with _ | ⟨cs, i, s⟩
  · simp only [hrun] at hcall
    exact absurd hcall (by simp)
  · simp only [hrun, Option.some.injEq, Except.ok.injEq, Prod.mk.injEq] at hcall
    obtain ⟨hr, -⟩ := hcall
    have hcount := indexRun_counts hrun
    subst hr
    refine ⟨rfl, ?_, ?_⟩
    · intro hmf
      rw [hmf] at hcount
      simpa using hcount
    · intro m hmf
      rw [hmf] at hcount
      simpa [List.length_take] using hcount

theorem c3_index_counts_amended_witness :
    ({ indexed := 1, totalFiles := 1, skipped := 0, chunks := 1 } : IndexReport).indexed
      + ({ indexed := 1, totalFiles := 1, skipped := 0, chunks := 1 } : IndexReport).skipped
      = min 5 ([(⟨"/a", 1, .ok "x"⟩ : FileRec)].length) :=
  (c3_index_counts_amended [("cb", [⟨"/a", 1, .ok "x"⟩])] (fun _ => Except.ok []) 1 0 2
    "cb" ⟨some 5, 50, true⟩ [] [⟨"/a", 1, .ok "x"⟩]
    { indexed := 1, totalFiles := 1, skipped := 0, chunks := 1 }
    [("cb", [{ content := "x", filePath := "/a", codebase := "cb",
               startLine := 1, endLine := 1, embedding := [] }])]
    rfl rfl).2.2 5 rfl

/-- C6 counterexample: one readable file whose single chunk's embedding
generation throws.  The claim says an embed error is counted as a *skip*
for the file; the code catches it per chunk, drops the chunk, and still
counts the file as indexed: the report is
`{indexed: 1, totalFiles: 1, skipped: 0, chunks: 0}`. -/
theorem c6_counterexample_embed_error_counted_indexed :
    indexCodebase [("cb", [⟨"/a", 1, .ok "x"⟩])] (fun _ => Except.error ()) 1 0 2 "cb"
        ⟨none, 50, true⟩ []
      = some (.ok ({ indexed := 1, totalFiles := 1, skipped := 0, chunks := 0 },
          [("cb", [])])) ∧
    (0 : Nat) ≠ 1 :=
  ⟨rfl, by decide⟩

/-- C6 (amended): a read (or stat) failure is caught and counted as a skip
for that file without aborting anything; an embedding failure is caught
*per chunk* — the failing chunk is dropped and the file is still counted as
indexed, not skipped; and for a registered name the index call never
returns an error, only aggregate counts. -/
theorem c6_failure_handling_amended (embedFn : String → Except Unit (List ℝ))
    (W O fuel : Nat) (cb : String) (skipL : Bool) :
    (∀ f : FileRec, f.content = Except.error () →
      processFile embedFn W O fuel cb skipL f = some ([], 0, 1)) ∧
    (∀ (f : FileRec) (content : String) (chunks : List IndexedChunk),
      f.content = Except.ok content →
      (skipL = true → f.size ≤ MAX_FILE_SIZE) →
      indexFile embedFn cb f.path content W O fuel = some chunks →
      processFile embedFn W O fuel cb skipL f = some (chunks, 1, 0)) ∧
    (∀ (registered : List (String × List FileRec)) (files : List FileRec)
        (name : String) (opts : IndexOptions)
        (state : List (String × List IndexedChunk)) (e : IndexErr),
      List.lookup name registered = some files →
      indexCodebase registered embedFn W O fuel name opts state
        ≠ some (Except.error e)) := by
  refine ⟨?_, ?_, ?_⟩
  · intro f hf
    rw [processFile]
    split
    · rfl
    · rw [hf]
  · intro f content chunks hf hsize hidx
    have hcond : ¬ (skipL = true ∧ MAX_FILE_SIZE < f.size) := by
      rintro ⟨h1, h2⟩
      exact absurd (hsize h1) (by omega)
    rw [processFile, if_neg (by simpa using hcond)]
    simp only [hf, hidx]
  · intro registered files name opts state e hreg hcall
    rw [indexCodebase] at hcall
    simp only [hreg] at hcall
    rcases hrun : indexRun files embedFn W O fuel name opts with _ | ⟨cs, i, s⟩
    · simp only [hrun] at hcall
      exact absurd hcall (by simp)
    · simp only [hrun] at hcall
      exact absurd hcall (by simp)

theorem c6_failure_handling_amended_witness :
    processFile (fun _ => Except.ok []) 1 0 2 "cb" true ⟨"/a", 1, .error ()⟩
      = some ([], 0, 1) ∧
    indexCodebase [("cb", [])] (fun _ => Except.ok []) 1 0 2 "cb" ⟨none, 50, true⟩ []
      ≠ some (Except.error (.codebaseNotFound "cb")) :=
  ⟨(c6_failure_handling_amended (fun _ => Except.ok []) 1 0 2 "cb" true).1
      ⟨"/a", 1, .error ()⟩ rfl,
   (c6_failure_handling_amended (fun _ => Except.ok []) 1 0 2 "cb" true).2.2
      [("cb", [])] [] "cb" ⟨none, 50, true⟩ [] (.codebaseNotFound "cb") rfl⟩

theorem lookup_jsMapSet_self_of_mem {α : Type} :
    ∀ (m : List (String × α)) (k : String) (v : α),
      m.any (fun p => p.1 = k) = true →
      List.lookup k (m.map fun p => if p.1 = k then (k, v) else p) = some v := by
  intro m k v hmem
  induction m with
  | nil => simp at hmem
  | cons p m ih =>
    obtain ⟨pk, pv⟩ := p
    by_cases hk : pk = k
    · simp [if_pos hk, List.lookup_cons]
    · have hmem' : m.any (fun q => q.1 = k) = true := by
        simpa [hk] using hmem
      simp only [List.map_cons, if_neg hk, List.lookup_cons,
        beq_false_of_ne (fun h => hk h.symm)]
      exact ih hmem'

theorem lookup_jsMapSet_self_of_absent {α : Type} :
    ∀ (m : List (String × α)) (k : String) (v : α),
      ¬ (m.any (fun p => p.1 = k) = true) →
      List.lookup k (m ++ [(k, v)]) = some v := by
  intro m k v hmem
  induction m with
  | nil => simp [List.lookup_cons]
  | cons p m ih =>
    obtain ⟨pk, pv⟩ := p
    have hk : ¬ (pk = k) := fun h => hmem (by simp [h])
    have hmem' : ¬ (m.any (fun q => q.1 = k) = true) := fun h => hmem (by simp [h])
    simp only [List.cons_append, List.lookup_cons,
      beq_false_of_ne (fun h => hk h.symm)]
    exact ih hmem'

theorem lookup_map_set_other {α : Type} :
    ∀ (m : List (String × α)) (k n : String) (v : α), n ≠ k →
      List.lookup n (m.map fun p => if p.1 = k then (k, v) else p) = List.lookup n m := by
  intro m k n v hn
  induction m with
  | nil => simp
  | cons p m ih =>
    obtain ⟨pk, pv⟩ := p
    by_cases hk : pk = k
    · subst hk
      simp only [List.map_cons, if_true, List.lookup_cons, beq_false_of_ne hn]
      exact ih
    · simp only [List.map_cons, if_neg hk, List.lookup_cons]
      by_cases hnp : n = pk
      · simp [hnp]
      · simp only [beq_false_of_ne hnp]
        exact ih

theorem lookup_append_single_other {α : Type} :
    ∀ (m : List (String × α)) (k n : String) (v : α), n ≠ k →
      List.lookup n (m ++ [(k, v)]) = List.lookup n m := by
  intro m k n v hn
  induction m with
  | nil => simp [List.lookup_cons, beq_false_of_ne hn]
  | cons p m ih =>
    obtain ⟨pk, pv⟩ := p
    simp only [List.cons_append, List.lookup_cons]
    by_cases hnp : n = pk
    · simp [hnp]
    · simp only [beq_false_of_ne hnp]
      exact ih

theorem lookup_jsMapSet_self {α : Type} (m : List (String × α)) (k : String) (v : α) :
    List.lookup k (jsMapSet m k v) = some v := by
  rw [jsMapSet]
  split
  next h => exact lookup_jsMapSet_self_of_mem m k v h
  next h => exact lookup_jsMapSet_self_of_absent m k v h

theorem lookup_jsMapSet_other {α : Type} (m : List (String × α)) (k n : String) (v : α)
    (hn : n ≠ k) : List.lookup n (jsMapSet m k v) = List.lookup n m := by
  rw [jsMapSet]
  split
  · exact lookup_map_set_other m k n v hn
  · exact lookup_append_single_other m k n v hn

/-- C7: after a successful index call the stored entries for the indexed
name are exactly the newly aggregated chunk list — which `indexRun`
computes without looking at the previous state, so the old entries are
replaced wholesale, never merged — and every other collection's entries
are unchanged. -/
theorem c7_index_replaces_collection (registered : List (String × List FileRec))
    (embedFn : String → Except Unit (List ℝ)) (W O fuel : Nat) (name : String)
    (opts : IndexOptions) (state : List (String × List IndexedChunk))
    (files : List FileRec) (cs : List IndexedChunk) (i s : Nat)
    (r : IndexReport) (st : List (String × List IndexedChunk))
    (hreg : List.lookup name registered = some files)
    (hrun : indexRun files embedFn W O fuel name opts = some (cs, i, s))
    (hcall : indexCodebase registered embedFn W O fuel name opts state
      = some (.ok (r, st))) :
    st = jsMapSet state name cs ∧
    List.lookup name st = some cs ∧
    r.chunks = cs.length ∧
    ∀ n, n ≠ name → List.lookup n st = List.lookup n state := by
  rw [indexCodebase] at hcall
  simp only [hreg, hrun, Option.some.injEq, Except.ok.injEq, Prod.mk.injEq] at hcall
  obtain ⟨hr, hst⟩ := hcall
  subst hst
  subst hr
  exact ⟨rfl, lookup_jsMapSet_self state name cs, rfl,
    fun n hn => lookup_jsMapSet_other state name n cs hn⟩

theorem c7_index_replaces_collection_witness :
    List.lookup "cb"
        [("cb", [({ content := "x", filePath := "/a", codebase := "cb",
                    startLine := 1, endLine := 1, embedding := [] } : IndexedChunk)]),
         ("other", [({ content := "o", filePath := "/o", codebase := "other",
                       startLine := 1, endLine := 1, embedding := [] } : IndexedChunk)])]
      = some [({ content := "x", filePath := "/a", codebase := "cb",
                 startLine := 1, endLine := 1, embedding := [] } : IndexedChunk)] ∧
    List.lookup "other"
        [("cb", [({ content := "x", filePath := "/a", codebase := "cb",
                    startLine := 1, endLine := 1, embedding := [] } : IndexedChunk)]),
         ("other", [({ content := "o", filePath := "/o", codebase := "other",
                       startLine := 1, endLine := 1, embedding := [] } : IndexedChunk)])]
      = List.lookup "other"
        [("cb", [({ content := "old", filePath := "/old", codebase := "cb",
                    startLine := 1, endLine := 1, embedding := [] } : IndexedChunk)]),
         ("other", [({ content := "o", filePath := "/o", codebase := "other",
                       startLine := 1, endLine := 1, embedding := [] } : IndexedChunk)])] := by
  have h := c7_index_replaces_collection
    [("cb", [⟨"/a", 1, .ok "x"⟩])] (fun _ => Except.ok []) 1 0 2 "cb"
    ⟨none, 50, true⟩
    [("cb", [({ content := "old", filePath := "/old", codebase := "cb",
                startLine := 1, endLine := 1, embedding := [] } : IndexedChunk)]),
     ("other", [({ content := "o", filePath := "/o", codebase := "other",
                   startLine := 1, endLine := 1, embedding := [] } : IndexedChunk)])]
    [⟨"/a", 1, .ok "x"⟩]
    [({ content := "x", filePath := "/a", codebase := "cb",
        startLine := 1, endLine := 1, embedding := [] } : IndexedChunk)] 1 0
    { indexed := 1, totalFiles := 1, skipped := 0, chunks := 1 }
    [("cb", [({ content := "x", filePath := "/a", codebase := "cb",
                startLine := 1, endLine := 1, embedding := [] } : IndexedChunk)]),
     ("other", [({ content := "o", filePath := "/o", codebase := "other",
                   startLine := 1, endLine := 1, embedding := [] } : IndexedChunk)])]
    rfl rfl rfl
  exact ⟨h.2.1, h.2.2.2 "other" (by decide)⟩

/-! ### Claims C4, C5 — search ordering, limit, and collection validation -/

theorem mem_insertScoreDesc {z x : ScoredChunk} {l : List ScoredChunk}
    (hz : z ∈ insertScoreDesc x l) : z = x ∨ z ∈ l := by
  induction l with
  | nil =>
    rw [insertScoreDesc] at hz
    simpa using hz
  | cons y ys ih =>
    rw [insertScoreDesc] at hz
    split at hz
    · rcases List.mem_cons.mp hz with h | h
      · exact Or.inr (h ▸ List.mem_cons_self _ _)
      · rcases ih h with h | h
        · exact Or.inl h
        · exact Or.inr (List.mem_cons_of_mem _ h)
    · rcases List.mem_cons.mp hz with h | h
      · exact Or.inl h
      · exact Or.inr h

theorem pairwise_insertScoreDesc {x : ScoredChunk} {l : List ScoredChunk}
    (hl : l.Pairwise (fun a b => b.score ≤ a.score)) :
    (insertScoreDesc x l).Pairwise (fun a b => b.score ≤ a.score) := by
  induction l with
  | nil =>
    rw [insertScoreDesc]
    simp
  | cons y ys ih =>
    rw [insertScoreDesc]
    rcases List.pairwise_cons.mp hl with ⟨hy, hys⟩
    split
    next hlt =>
      refine List.pairwise_cons.mpr ⟨?_, ih hys⟩
      intro z hz
      rcases mem_insertScoreDesc hz with rfl | hmem
      · exact le_of_lt hlt
      · exact hy z hmem
    next hge =>
      refine List.pairwise_cons.mpr ⟨?_, hl⟩
      intro z hz
      rcases List.mem_cons.mp hz with rfl | hmem
      · exact not_lt.mp hge
      · exact le_trans (hy z hmem) (not_lt.mp hge)

theorem pairwise_sortByScoreDesc (l : List ScoredChunk) :
    (sortByScoreDesc l).Pairwise (fun a b => b.score ≤ a.score) := by
  induction l with
  | nil =>
    rw [sortByScoreDesc]
    simp
  | cons x xs ih =>
    rw [sortByScoreDesc]
    exact pairwise_insertScoreDesc ih

open Classical in
theorem filter_insertScoreDesc (x : ScoredChunk) (l : List ScoredChunk) (s : ℝ) :
    (insertScoreDesc x l).filter (fun c => decide (c.score = s))
      = (if x.score = s then [x] else []) ++ l.filter (fun c => decide (c.score = s)) := by
  induction l with
  | nil =>
    rw [insertScoreDesc]
    by_cases hx : x.score = s <;> simp [hx]
  | cons y ys ih =>
    rw [insertScoreDesc]
    split
    next hlt =>
      by_cases hx : x.score = s
      · have hy : ¬ (y.score = s) := by
          intro h
          rw [hx] at hlt
          exact absurd h (ne_of_gt hlt)
        simp only [List.filter_cons, ih]
        simp [hx, hy]
      · simp only [List.filter_cons, ih]
        by_cases hy : y.score = s <;> simp [hx, hy]
    next hge =>
      by_cases hx : x.score = s <;> simp [List.filter_cons, hx]

open Classical in
theorem filter_sortByScoreDesc (l : List ScoredChunk) (s : ℝ) :
    (sortByScoreDesc l).filter (fun c => decide (c.score = s))
      = l.filter (fun c => decide (c.score = s)) := by
  induction l with
  | nil => rw [sortByScoreDesc]
  | cons x xs ih =>
    rw [sortByScoreDesc, filter_insertScoreDesc, ih]
    by_cases hx : x.score = s <;> simp [List.filter_cons, hx]

open Classical in
/-- C4: the search result is exactly the stable descending sort of the
candidate enumeration truncated to `limit`: its length never exceeds
`limit`, scores are non-increasing along it, and for every score value the
candidates attaining that score appear in exactly their enumeration order
(collection order, then entry order) — the stable tie-break. -/
theorem c4_search_sorted_stable_limited (state : List (String × List IndexedChunk))
    (queryEmbedding : List ℝ) (codebaseNames : Option (List String)) (limit : Nat) :
    search state queryEmbedding codebaseNames limit
      = (sortByScoreDesc (searchCandidates state queryEmbedding codebaseNames)).take limit ∧
    (search state queryEmbedding codebaseNames limit).length ≤ limit ∧
    (search state queryEmbedding codebaseNames limit).Pairwise
      (fun a b => b.score ≤ a.score) ∧
    (∀ s : ℝ,
      (sortByScoreDesc (searchCandidates state queryEmbedding codebaseNames)).filter
          (fun c => decide (c.score = s))
        = (searchCandidates state queryEmbedding codebaseNames).filter
          (fun c => decide (c.score = s))) := by
  refine ⟨rfl, ?_, ?_, ?_⟩
  · rw [search]
    exact List.length_take_le _ _
  · rw [search]
    exact List.Pairwise.sublist (List.take_sublist _ _) (pairwise_sortByScoreDesc _)
  · intro s
    exact filter_sortByScoreDesc _ s

/-- C5: explicitly naming an unregistered collection makes `semanticSearch`
throw `CollectionNotFound`; if every explicit name is registered the call
succeeds and delegates to `search`, and if none of them was ever indexed
the result is the empty list, not an error. -/
theorem c5_semanticSearch_validation (registeredPaths : List (String × String))
    (state : List (String × List IndexedChunk)) (queryEmbedding : List ℝ)
    (names : List String) (limit : Nat) :
    ((∃ n ∈ names, List.lookup n registeredPaths = none) →
      ∃ m, semanticSearch registeredPaths state queryEmbedding (some names) limit
          = .error (.collectionNotFound m) ∧ List.lookup m registeredPaths = none) ∧
    ((∀ n ∈ names, (List.lookup n registeredPaths).isSome) →
      semanticSearch registeredPaths state queryEmbedding (some names) limit
        = .ok (search state queryEmbedding (some names) limit)) ∧
    ((∀ n ∈ names, (List.lookup n registeredPaths).isSome ∧
        List.lookup n state = none) →
      semanticSearch registeredPaths state queryEmbedding (some names) limit
        = .ok []) := by
  refine ⟨?_, ?_, ?_⟩
  · intro h
    have hfind : (names.find? fun n => (List.lookup n registeredPaths).isNone).isSome := by
      rw [List.find?_isSome]
      obtain ⟨n, hn, hnone⟩ := h
      exact ⟨n, hn, by simp [hnone]⟩
    obtain ⟨m, hm⟩ := Option.isSome_iff_exists.mp hfind
    have hpm := List.find?_some hm
    simp only [Option.isNone_iff_eq_none] at hpm
    refine ⟨m, ?_, hpm⟩
    rw [semanticSearch]
    simp only [hm]
  · intro h
    have hfind : (names.find? fun n => (List.lookup n registeredPaths).isNone) = none := by
      rw [List.find?_eq_none]
      intro n hn
      rcases Option.isSome_iff_exists.mp (h n hn) with ⟨v, hv⟩
      simp [hv]
    rw [semanticSearch]
    simp only [hfind]
  · intro h
    have hfind : (names.find? fun n => (List.lookup n registeredPaths).isNone) = none := by
      rw [List.find?_eq_none]
      intro n hn
      rcases Option.isSome_iff_exists.mp (h n hn).1 with ⟨v, hv⟩
      simp [hv]
    have hfilter : (names.filter fun n => (List.lookup n state).isSome) = [] := by
      rw [List.filter_eq_nil_iff]
      intro n hn
      simp [(h n hn).2]
    rw [semanticSearch]
    simp only [hfind]
    rw [search, searchCandidates, codebasesToSearch, hfilter]
    simp [sortByScoreDesc]

theorem c5_semanticSearch_validation_witness :
    semanticSearch [("a", "/a")] [("a", [])] ([] : List ℝ) (some ["a"]) 10
        = .ok (search [("a", [])] ([] : List ℝ) (some ["a"]) 10) ∧
    semanticSearch [("a", "/a")] [] ([] : List ℝ) (some ["a"]) 10 = .ok [] :=
  ⟨(c5_semanticSearch_validation [("a", "/a")] [("a", [])] [] ["a"] 10).2.1
      (by intro n hn; rcases List.mem_singleton.mp hn with rfl; rfl),
   (c5_semanticSearch_validation [("a", "/a")] [] [] ["a"] 10).2.2
      (by intro n hn; rcases List.mem_singleton.mp hn with rfl; exact ⟨rfl, rfl⟩)⟩

/-! ### Claim C8 — cosine similarity is total and defensively zero -/

/-- C8: `cosineSimilarity` is a total function (it returns a value for
*every* pair of vectors); a length mismatch scores `0`, and whenever either
vector's norm (`Math.sqrt` of its sum of squares) is zero the
`denominator === 0` guard returns `0` instead of dividing. -/
theorem c8_cosineSimilarity_defensive_zero (vecA vecB : List ℝ) :
    (vecA.length ≠ vecB.length → cosineSimilarity vecA vecB = 0) ∧
    (Real.sqrt ((vecA.map fun x => x * x).sum) = 0 ∨
        Real.sqrt ((vecB.map fun x => x * x).sum) = 0 →
      cosineSimilarity vecA vecB = 0) := by
  constructor
  · intro h
    rw [cosineSimilarity, if_pos h]
  · intro h
    have hz : Real.sqrt ((vecA.map fun x => x * x).sum) *
        Real.sqrt ((vecB.map fun x => x * x).sum) = 0 := by
      rcases h with h | h
      · rw [h, zero_mul]
      · rw [h, mul_zero]
    by_cases hlen : vecA.length ≠ vecB.length
    · rw [cosineSimilarity, if_pos hlen]
    · rw [cosineSimilarity, if_neg hlen, if_pos hz]

theorem c8_cosineSimilarity_defensive_zero_witness :
    cosineSimilarity [(1 : ℝ)] [1, 2] = 0 ∧ cosineSimilarity [(0 : ℝ)] [3] = 0 :=
  ⟨(c8_cosineSimilarity_defensive_zero [1] [1, 2]).1 (by simp),
   (c8_cosineSimilarity_defensive_zero [0] [3]).2 (Or.inl (by simp))⟩

/-! ### Claim C10 — path confinement of `resolveFilePath` / `readFile` -/

/-- C10: `resolveFilePath` returns `null` or a resolved absolute path that
the guard has checked to be the codebase root itself or to extend the root
past a `'/'` (so `'.'`\/`'..'` segments cannot escape the root: they are
eliminated by resolution *before* the check); `readFile` throws
`File not found` whenever resolution returns `null` (for a registered
codebase), and any successful read reads exactly the resolved, confined
path. -/
theorem c10_resolveFilePath_confinement (codebases : List (String × List String))
    (fsExists : String → Bool) (fileSize : String → Nat)
    (fileData : String → Except Unit String) (codebaseName filePath : String)
    (startLine? endLine? : Option Int) :
    (∀ p, resolveFilePath codebases fsExists codebaseName filePath = some p →
      ∃ rootSegs, List.lookup codebaseName codebases = some rootSegs ∧
        (charListPre (renderAbs (resolveAbs rootSegs) ++ "/").data p.data = true ∨
          p = renderAbs (resolveAbs rootSegs)) ∧
        p = renderAbs (resolveAbs (rootSegs ++ splitSlash filePath))) ∧
    (∀ rootSegs, List.lookup codebaseName codebases = some rootSegs →
      resolveFilePath codebases fsExists codebaseName filePath = none →
      readFile codebases fsExists fileSize fileData codebaseName filePath startLine? endLine?
        = .error (.fileNotFound filePath)) ∧
    (∀ fc, readFile codebases fsExists fileSize fileData codebaseName filePath
        startLine? endLine? = .ok fc →
      resolveFilePath codebases fsExists codebaseName filePath = some fc.filePath) := by
  refine ⟨?_, ?_, ?_⟩
  · intro p h
    rw [resolveFilePath] at h
    rcases hlk : List.lookup codebaseName codebases with _ | rootSegs
    · rw [hlk] at h
      exact absurd h (by simp)
    · rw [hlk] at h
      simp only at h
      split at h
      next hguard =>
        split at h
        · simp only [Option.some.injEq] at h
          subst h
          exact ⟨rootSegs, rfl, hguard, rfl⟩
        · exact absurd h (by simp)
      next => exact absurd h (by simp)
  · intro rootSegs hreg hres
    rw [readFile]
    simp only [hreg, hres]
  · intro fc h
    rw [readFile] at h
    rcases hlk : List.lookup codebaseName codebases with _ | rootSegs
    · rw [hlk] at h
      exact absurd h (by simp)
    · rw [hlk] at h
      simp only at h
      rcases hres : resolveFilePath codebases fsExists codebaseName filePath with _ | p
      · rw [hres] at h
        exact absurd h (by simp)
      · rw [hres] at h
        simp only at h
        split at h
        · exact absurd h (by simp)
        · rcases hdata : fileData p with _ | content
          · rw [hdata] at h
            exact absurd h (by simp)
          · rw [hdata] at h
            simp only at h
            split at h
            · simp only [Except.ok.injEq] at h
              have hfp : fc.filePath = p := by rw [← h]
              rw [hfp]
            · simp only [Except.ok.injEq] at h
              have hfp : fc.filePath = p := by rw [← h]
              rw [hfp]

theorem c10_resolveFilePath_confinement_witness :
    resolveFilePath [("cb", ["home", "user", "proj"])] (fun _ => true) "cb"
        "src/../src/main.ts" = some "/home/user/proj/src/main.ts" :=
  (c10_resolveFilePath_confinement [("cb", ["home", "user", "proj"])] (fun _ => true)
    (fun _ => 0) (fun _ => Except.ok "hi") "cb" "src/../src/main.ts" none none).2.2
    { content := "hi", filePath := "/home/user/proj/src/main.ts", codebase := "cb",
      relativePath := "src/main.ts", totalLines := 1, startLine := none, endLine := none }
    rfl

end SimpleRagMcp
